import Mathlib

/-!
Verification of the block-table compiler and runtime accessor of the
`unicode-bidi` character-data core.

Source files embedded here:
* `src/build.rs` — the range-table lookup (`lookup`), the block compiler
  (`compile_table`) and the table emission (`write_table`).
* `src/src/char_data/mod.rs` — the runtime accessor (`bidi_class`) and the
  `is_rtl` predicate.

The raw range data `BIDI_CLASS` and the `BidiClass` enumeration live in
`src/char_data/tables.rs`, which is external input data (pre-sorted,
non-overlapping inclusive ranges); every definition below is therefore
parameterised by an arbitrary range table.  Codepoints are `u32` in the
source; they are modelled as `Nat` (no arithmetic below can overflow for
`u32`-sized inputs, and subtraction sites in the source are saturating).
Fallible array indexing is modelled with `Option`.
-/

set_option maxRecDepth 8192

namespace UnicodeBidi

/-- Modelled from the spec: the `ClassTag` enumeration (`BidiClass` in
`src/char_data/tables.rs`, which is not under `src/`): the closed set of
symbolic Bidi_Class values of UAX#9, "a given schema". -/
inductive BidiClass where
  | L | R | AL | AN | EN | ES | ET | CS | NSM | BN | B | S | WS | ON
  | LRE | RLE | LRO | RLO | PDF | LRI | RLI | FSI | PDI
deriving DecidableEq, Repr

/-- A row of the `BIDI_CLASS` range table: `(start, end, class)` with inclusive
bounds, as in `src/char_data/tables.rs`. -/
abbrev RangeTable := List (Nat × Nat × BidiClass)

/-- `block::SIZE` from src/build.rs (also the generated `BLOCK_SIZE`). -/
def SIZE : Nat := 256

/-- `block::LAST_INDEX = SIZE - 1` from src/build.rs. -/
def LAST_INDEX : Nat := SIZE - 1

/-- `SHIFT = LAST_INDEX.count_ones()` from src/build.rs (and
`MASK.count_ones()` in mod.rs): 255 has eight one bits. -/
def SHIFT : Nat := 8

/-- `MASK = BLOCK_SIZE - 1` from src/src/char_data/mod.rs. -/
def MASK : Nat := SIZE - 1

/-- The comparator passed to `binary_search_by` in `lookup` (src/build.rs):
`Greater` when the codepoint is before the range, `Less` when after it,
`Equal` when the range contains it. -/
def rangeCmp (codepoint : Nat) (r : Nat × Nat × BidiClass) : Ordering :=
  if codepoint < r.1 then .gt
  else if r.2.1 < codepoint then .lt
  else .eq

/-- Slice `binary_search_by` over the indices `[left, right)` of the table,
probing `mid = left + (right - left) / 2` and narrowing by the comparator's
answer. -/
def bsGo (t : RangeTable) (codepoint left right : Nat) : Option Nat :=
  if h : left < right then
    match rangeCmp codepoint (t.getD (left + (right - left) / 2) (0, 0, .L)) with
    | .lt => bsGo t codepoint (left + (right - left) / 2 + 1) right
    | .gt => bsGo t codepoint left (left + (right - left) / 2)
    | .eq => some (left + (right - left) / 2)
  else none
termination_by right - left
decreasing_by
  · omega
  · have h2 : (right - left) / 2 < right - left := Nat.div_lt_self (by omega) (by omega)
    omega

/-- `lookup` from src/build.rs: binary-search the range table for a range
containing the codepoint; on a miss (`Err`) fall back to `BidiClass::L`. -/
def lookup (t : RangeTable) (codepoint : Nat) : BidiClass :=
  match bsGo t codepoint 0 t.length with
  | some idx => (t.getD idx (0, 0, .L)).2.2
  | none => BidiClass.L

/-- `block::Block`: a fixed-size run of `SIZE` classifications (a `Vec` in the
source only because const generics were unavailable). -/
abbrev Block := List BidiClass

/-- `Block::new()`: `vec![BidiClass::L; SIZE]`. -/
def blockNew : Block := List.replicate SIZE BidiClass.L

/-- `Iterator::position`: the index of the first element satisfying the
predicate, if any. -/
def position (p : α → Bool) : List α → Option Nat
  | [] => none
  | x :: xs => if p x then some 0 else (position p xs).map (· + 1)

/-- The mutable state of the `compile_table` loop in src/build.rs. -/
structure CompState where
  blocks : List (Nat × Block)
  addrToIdx : List (Nat × Nat)
  block : Block

/-- The block write-out inside `compile_table`'s loop: reuse the index of an
equal stored block, else append the block with the next dense index. -/
def finalize (blocks : List (Nat × Block)) (addrToIdx : List (Nat × Nat))
    (blockAddress : Nat) (block : Block) : List (Nat × Block) × List (Nat × Nat) :=
  match position (fun q => q.2 == block) blocks with
  | some index => (blocks, addrToIdx ++ [(blockAddress, index)])
  | none => (blocks ++ [(blockAddress, block)], addrToIdx ++ [(blockAddress, blocks.length)])

/-- One iteration of `for codepoint in start..=end` in `compile_table`
(src/build.rs): on a block boundary (low bits zero, codepoint nonzero) write
out the previous block at address `((codepoint >> SHIFT) - 1) << SHIFT`
(the subtraction is saturating) and reset; then store this codepoint's class
at its low-order bits in the working block. -/
def compileStep (t : RangeTable) (st : CompState) (codepoint : Nat) : CompState :=
  let bc := lookup t codepoint
  let blockAddress := ((codepoint >>> SHIFT) - 1) <<< SHIFT
  let st1 :=
    if codepoint ≠ 0 ∧ codepoint &&& LAST_INDEX = 0 then
      let p := finalize st.blocks st.addrToIdx blockAddress st.block
      CompState.mk p.1 p.2 blockNew
    else st
  CompState.mk st1.blocks st1.addrToIdx (st1.block.set (codepoint &&& LAST_INDEX) bc)

/-- `BIDI_CLASS.iter().min_by_key(|(start, _, _)| start)`, keeping only the
minimal `start` key (which is all the caller uses); `None` on an empty table. -/
def minStart : RangeTable → Option Nat
  | [] => none
  | r :: rs => some ((rs.map fun q => q.1).foldl min r.1)

/-- `BIDI_CLASS.iter().max_by_key(|(_, end, _)| end)`, keeping only the
maximal `end` key; `None` on an empty table. -/
def maxEnd : RangeTable → Option Nat
  | [] => none
  | r :: rs => some ((rs.map fun q => q.2.1).foldl max r.2.1)

/-- `CompiledTable` from src/build.rs. -/
structure CompiledTable where
  blocks : List (Nat × Block)
  address_to_block_index : List (Nat × Nat)
  last_code_point : Nat

/-- `end & !LAST_INDEX` (src/build.rs): clear the low `SHIFT` bits of the
maximal range end (for `u32` values the complement-mask form and the
shift form agree). -/
def endBlockAddress (e : Nat) : Nat := (e >>> SHIFT) <<< SHIFT

/-- The `end` actually scanned to by `compile_table` after the extension
`end = end_block_address + block::SIZE`. -/
def scanEnd (e : Nat) : Nat := endBlockAddress e + SIZE

/-- `compile_table` from src/build.rs.  The `unwrap` of `min_by_key` /
`max_by_key` on an empty table is modelled as `none`. -/
def compile_table (t : RangeTable) : Option CompiledTable :=
  match minStart t, maxEnd t with
  | some start, some last =>
    let e := scanEnd last
    let st := (List.range' start (e + 1 - start)).foldl (compileStep t) (CompState.mk [] [] blockNew)
    some (CompiledTable.mk st.blocks st.addrToIdx last)
  | _, _ => none

/-- The generated `BIDI_CLASS_BLOCKS` array (`write_table`, src/build.rs):
the unique blocks flattened in first-seen order. -/
def bidiClassBlocks (ct : CompiledTable) : List BidiClass :=
  (ct.blocks.map fun q => q.2).flatten

/-- The generated `BLOCK_OFFSET_{addr}` constant (`write_table`): the position
of the block carrying that address times `block::SIZE` (name resolution picks
the first matching definition; addresses of stored blocks are distinct). -/
def blockOffset (ct : CompiledTable) (addr : Nat) : Option Nat :=
  (position (fun q => q.1 == addr) ct.blocks).map (fun index => index * SIZE)

/-- The generated `BIDI_CLASS_BLOCK_OFFSETS` array (`write_table`): for each
`(_, index)` entry of `address_to_block_index`, the `BLOCK_OFFSET` constant
named by the address of `blocks[index]`; the source's panicking indexing is
modelled as `Option`. -/
def blockOffsets (ct : CompiledTable) : Option (List Nat) :=
  ct.address_to_block_index.mapM fun ai =>
    (ct.blocks[ai.2]?).bind fun b => blockOffset ct b.1

/-- `bidi_class` from src/src/char_data/mod.rs over the generated arrays:
two-level lookup below `LAST_CODEPOINT`, default `L` above it; the source's
panicking array indexing is modelled as `Option`. -/
def bidi_class (blocksArr : List BidiClass) (offsets : List Nat)
    (lastCodepoint codepoint : Nat) : Option BidiClass :=
  if codepoint ≤ lastCodepoint then
    (offsets[codepoint >>> SHIFT]?).bind fun off => blocksArr[off + (codepoint &&& MASK)]?
  else
    some BidiClass.L

/-- The accessor applied to the artifacts generated from a compiled table. -/
def classify (ct : CompiledTable) (codepoint : Nat) : Option BidiClass :=
  (blockOffsets ct).bind fun offsets =>
    bidi_class (bidiClassBlocks ct) offsets ct.last_code_point codepoint

/-- `is_rtl` from src/src/char_data/mod.rs. -/
def is_rtl (bc : BidiClass) : Bool :=
  match bc with
  | .RLE | .RLO | .RLI => true
  | _ => false

/-- The spec's well-formedness of the input data: ranges are sorted,
pairwise non-overlapping, with `start ≤ end`. -/
def rangesWF (t : RangeTable) : Prop :=
  (∀ r ∈ t, r.1 ≤ r.2.1) ∧ t.Pairwise fun a b => a.2.1 < b.1

/-- Modelled from the spec: `RangeTable.lookup` with a configurable per-use
default classification ("This default is ... configurable per use, not
hard-coded to one property"), for comparison with the source's `lookup`. -/
def lookupWithDefault (t : RangeTable) (dflt : BidiClass) (codepoint : Nat) : BidiClass :=
  match bsGo t codepoint 0 t.length with
  | some idx => (t.getD idx (0, 0, .L)).2.2
  | none => dflt

/-- Ghost description of the working block the scan materialises for block
number `k`: positions below the scan start keep the `Block::new` default. -/
def matBlock (t : RangeTable) (start k : Nat) : Block :=
  (List.range SIZE).map fun j =>
    if start ≤ SIZE * k + j then lookup t (SIZE * k + j) else BidiClass.L

/-- Ghost description of the sequence of (address, block) pairs the scan
writes out: block `k` carries address `SIZE * k`. -/
def blockSeq (t : RangeTable) (start n : Nat) : List (Nat × Block) :=
  (List.range n).map fun k => (SIZE * k, matBlock t start k)

/-- Ghost re-statement of the dedup loop as one fold over finished blocks. -/
def dedupAll (l : List (Nat × Block)) : List (Nat × Block) × List (Nat × Nat) :=
  l.foldl (fun p ab => finalize p.1 p.2 ab.1 ab.2) ([], [])

/-- Ghost description of a run of boundary-free write iterations. -/
def writeRun (t : RangeTable) (w : Block) (a n : Nat) : Block :=
  (List.range' a n).foldl (fun b c => b.set (c &&& LAST_INDEX) (lookup t c)) w

/-- A small well-formed range table used as a concrete witness input. -/
def exTable : RangeTable :=
  [(0, 1, BidiClass.BN), (3, 5, BidiClass.R), (7, 300, BidiClass.AL)]

/-- A non-empty but malformed (unsorted, hence not `rangesWF`) input. -/
def badTable : RangeTable :=
  [(10, 20, BidiClass.R), (0, 5, BidiClass.L)]

/-! ### Comparator and binary-search lemmas -/

theorem rangeCmp_eq_gt {c : Nat} {r : Nat × Nat × BidiClass} :
    rangeCmp c r = .gt ↔ c < r.1 := by
  unfold rangeCmp
  split_ifs <;> simp_all

theorem rangeCmp_eq_eq {c : Nat} {r : Nat × Nat × BidiClass} :
    rangeCmp c r = .eq ↔ r.1 ≤ c ∧ c ≤ r.2.1 := by
  unfold rangeCmp
  split_ifs <;> simp_all <;> omega

theorem rangeCmp_eq_lt {c : Nat} {r : Nat × Nat × BidiClass} :
    rangeCmp c r = .lt ↔ r.1 ≤ c ∧ r.2.1 < c := by
  unfold rangeCmp
  split_ifs <;> simp_all <;> omega

theorem bsGo_some_aux (t : RangeTable) (c : Nat) (n : Nat) :
    ∀ left right m, right - left ≤ n → bsGo t c left right = some m →
    left ≤ m ∧ m < right ∧ rangeCmp c (t.getD m (0, 0, BidiClass.L)) = .eq := by
  induction n with
  | zero =>
    intro left right m hn h
    rw [bsGo, dif_neg (by omega)] at h
    exact absurd h (by simp)
  | succ n ih =>
    intro left right m hn h
    by_cases hlr : left < right
    · rw [bsGo, dif_pos hlr] at h
      have hmid : (right - left) / 2 < right - left := Nat.div_lt_self (by omega) (by omega)
      cases hcmp : rangeCmp c (t.getD (left + (right - left) / 2) (0, 0, BidiClass.L)) with
      | lt =>
        rw [hcmp] at h
        replace h : bsGo t c (left + (right - left) / 2 + 1) right = some m := h
        obtain ⟨h1, h2, h3⟩ := ih _ _ _ (by omega) h
        exact ⟨by omega, h2, h3⟩
      | gt =>
        rw [hcmp] at h
        replace h : bsGo t c left (left + (right - left) / 2) = some m := h
        obtain ⟨h1, h2, h3⟩ := ih _ _ _ (by omega) h
        exact ⟨h1, by omega, h3⟩
      | eq =>
        rw [hcmp] at h
        replace h : some (left + (right - left) / 2) = some m := h
        obtain rfl : left + (right - left) / 2 = m := Option.some_inj.mp h
        exact ⟨by omega, by omega, hcmp⟩
    · rw [bsGo, dif_neg hlr] at h
      exact absurd h (by simp)

theorem bsGo_some (t : RangeTable) (c left right m : Nat)
    (h : bsGo t c left right = some m) :
    left ≤ m ∧ m < right ∧ rangeCmp c (t.getD m (0, 0, BidiClass.L)) = .eq :=
  bsGo_some_aux t c (right - left) left right m le_rfl h

theorem bsGo_none_aux (t : RangeTable) (c : Nat)
    (hlt : ∀ i j : Nat, i ≤ j → j < t.length →
      rangeCmp c (t.getD j (0, 0, BidiClass.L)) = .lt →
      rangeCmp c (t.getD i (0, 0, BidiClass.L)) = .lt)
    (hgt : ∀ i j : Nat, i ≤ j → j < t.length →
      rangeCmp c (t.getD i (0, 0, BidiClass.L)) = .gt →
      rangeCmp c (t.getD j (0, 0, BidiClass.L)) = .gt)
    (n : Nat) :
    ∀ left right, right - left ≤ n → right ≤ t.length → bsGo t c left right = none →
    ∀ k, left ≤ k → k < right → rangeCmp c (t.getD k (0, 0, BidiClass.L)) ≠ .eq := by
  induction n with
  | zero =>
    intro left right hn hr h k hk1 hk2
    omega
  | succ n ih =>
    intro left right hn hr h k hk1 hk2
    have hlr : left < right := by omega
    rw [bsGo, dif_pos hlr] at h
    have hmid : (right - left) / 2 < right - left := Nat.div_lt_self (by omega) (by omega)
    cases hcmp : rangeCmp c (t.getD (left + (right - left) / 2) (0, 0, BidiClass.L)) with
    | lt =>
      rw [hcmp] at h
      replace h : bsGo t c (left + (right - left) / 2 + 1) right = none := h
      by_cases hk : left + (right - left) / 2 + 1 ≤ k
      · exact ih _ _ (by omega) hr h k hk hk2
      · have := hlt k (left + (right - left) / 2) (by omega) (by omega) hcmp
        rw [this]
        decide
    | gt =>
      rw [hcmp] at h
      replace h : bsGo t c left (left + (right - left) / 2) = none := h
      by_cases hk : k < left + (right - left) / 2
      · exact ih _ _ (by omega) (by omega) h k hk1 hk
      · have := hgt (left + (right - left) / 2) k (by omega) (by omega) hcmp
        rw [this]
        decide
    | eq =>
      rw [hcmp] at h
      exact absurd (h : some _ = none) (by simp)

theorem bsGo_none (t : RangeTable) (c : Nat)
    (hlt : ∀ i j : Nat, i ≤ j → j < t.length →
      rangeCmp c (t.getD j (0, 0, BidiClass.L)) = .lt →
      rangeCmp c (t.getD i (0, 0, BidiClass.L)) = .lt)
    (hgt : ∀ i j : Nat, i ≤ j → j < t.length →
      rangeCmp c (t.getD i (0, 0, BidiClass.L)) = .gt →
      rangeCmp c (t.getD j (0, 0, BidiClass.L)) = .gt)
    (left right : Nat) (hr : right ≤ t.length) (h : bsGo t c left right = none)
    (k : Nat) (hk1 : left ≤ k) (hk2 : k < right) :
    rangeCmp c (t.getD k (0, 0, BidiClass.L)) ≠ .eq :=
  bsGo_none_aux t c hlt hgt (right - left) left right le_rfl hr h k hk1 hk2

theorem lookup_below_min (t : RangeTable) (c : Nat) (h : ∀ r ∈ t, c < r.1) :
    lookup t c = BidiClass.L := by
  unfold lookup
  cases hb : bsGo t c 0 t.length with
  | none => rfl
  | some m =>
    obtain ⟨-, hm, hcmp⟩ := bsGo_some t c 0 t.length m hb
    rw [List.getD_eq_getElem _ _ hm, rangeCmp_eq_eq] at hcmp
    have := h _ (List.getElem_mem hm)
    omega

theorem wf_cmp_lt (t : RangeTable) (hwf : rangesWF t) (c : Nat) :
    ∀ i j : Nat, i ≤ j → j < t.length →
    rangeCmp c (t.getD j (0, 0, BidiClass.L)) = .lt →
    rangeCmp c (t.getD i (0, 0, BidiClass.L)) = .lt := by
  intro i j hij hj hcmp
  have hi : i < t.length := by omega
  rw [List.getD_eq_getElem _ _ hj, rangeCmp_eq_lt] at hcmp
  rw [List.getD_eq_getElem _ _ hi, rangeCmp_eq_lt]
  rcases Nat.eq_or_lt_of_le hij with heq | hlt
  · subst heq; exact hcmp
  · have hpw := List.pairwise_iff_getElem.mp hwf.2 i j hi hj hlt
    have hse := hwf.1 _ (List.getElem_mem hi)
    omega

theorem wf_cmp_gt (t : RangeTable) (hwf : rangesWF t) (c : Nat) :
    ∀ i j : Nat, i ≤ j → j < t.length →
    rangeCmp c (t.getD i (0, 0, BidiClass.L)) = .gt →
    rangeCmp c (t.getD j (0, 0, BidiClass.L)) = .gt := by
  intro i j hij hj hcmp
  have hi : i < t.length := by omega
  rw [List.getD_eq_getElem _ _ hi, rangeCmp_eq_gt] at hcmp
  rw [List.getD_eq_getElem _ _ hj, rangeCmp_eq_gt]
  rcases Nat.eq_or_lt_of_le hij with heq | hlt
  · subst heq; exact hcmp
  · have hpw := List.pairwise_iff_getElem.mp hwf.2 i j hi hj hlt
    have hse := hwf.1 _ (List.getElem_mem hi)
    omega

theorem lookup_found (t : RangeTable) (hwf : rangesWF t) (c : Nat) :
    ∀ r ∈ t, r.1 ≤ c → c ≤ r.2.1 → lookup t c = r.2.2 := by
  intro r hr h1 h2
  obtain ⟨k, hk, hkr⟩ := List.mem_iff_getElem.mp hr
  have hcmpk : rangeCmp c (t.getD k (0, 0, BidiClass.L)) = .eq := by
    rw [List.getD_eq_getElem _ _ hk, rangeCmp_eq_eq, hkr]
    exact ⟨h1, h2⟩
  unfold lookup
  cases hb : bsGo t c 0 t.length with
  | none =>
    exact absurd hcmpk
      (bsGo_none t c (wf_cmp_lt t hwf c) (wf_cmp_gt t hwf c) 0 t.length le_rfl hb k
        (Nat.zero_le k) hk)
  | some m =>
    obtain ⟨-, hm, hcmpm⟩ := bsGo_some t c 0 t.length m hb
    have hmk : m = k := by
      rw [List.getD_eq_getElem _ _ hm, rangeCmp_eq_eq] at hcmpm
      by_contra hne
      rcases Nat.lt_or_ge m k with hlt | hge
      · have hpw := List.pairwise_iff_getElem.mp hwf.2 m k hm hk hlt
        rw [hkr] at hpw
        omega
      · have hlt : k < m := by omega
        have hpw := List.pairwise_iff_getElem.mp hwf.2 k m hk hm hlt
        rw [hkr] at hpw
        omega
    subst hmk
    show (t.getD m (0, 0, BidiClass.L)).2.2 = r.2.2
    rw [List.getD_eq_getElem _ _ hm, hkr]

theorem lookup_gap (t : RangeTable) (c : Nat)
    (h : ∀ r ∈ t, ¬(r.1 ≤ c ∧ c ≤ r.2.1)) : lookup t c = BidiClass.L := by
  unfold lookup
  cases hb : bsGo t c 0 t.length with
  | none => rfl
  | some m =>
    obtain ⟨-, hm, hcmp⟩ := bsGo_some t c 0 t.length m hb
    rw [List.getD_eq_getElem _ _ hm, rangeCmp_eq_eq] at hcmp
    exact absurd hcmp (h _ (List.getElem_mem hm))

/-! ### min/max key lemmas -/

theorem foldl_min_le_init (l : List Nat) (a : Nat) : l.foldl min a ≤ a := by
  induction l generalizing a with
  | nil => exact le_rfl
  | cons x xs ih =>
    calc (x :: xs).foldl min a = xs.foldl min (min a x) := rfl
    _ ≤ min a x := ih _
    _ ≤ a := min_le_left _ _

theorem foldl_min_le_mem (l : List Nat) (a x : Nat) (hx : x ∈ l) : l.foldl min a ≤ x := by
  induction l generalizing a with
  | nil => cases hx
  | cons y ys ih =>
    rcases List.mem_cons.mp hx with heq | hmem
    · subst heq
      calc (x :: ys).foldl min a = ys.foldl min (min a x) := rfl
      _ ≤ min a x := foldl_min_le_init _ _
      _ ≤ x := min_le_right _ _
    · exact ih _ hmem

theorem foldl_max_ge_init (l : List Nat) (a : Nat) : a ≤ l.foldl max a := by
  induction l generalizing a with
  | nil => exact le_rfl
  | cons x xs ih =>
    calc a ≤ max a x := le_max_left _ _
    _ ≤ xs.foldl max (max a x) := ih _
    _ = (x :: xs).foldl max a := rfl

theorem foldl_max_ge_mem (l : List Nat) (a x : Nat) (hx : x ∈ l) : x ≤ l.foldl max a := by
  induction l generalizing a with
  | nil => cases hx
  | cons y ys ih =>
    rcases List.mem_cons.mp hx with heq | hmem
    · subst heq
      calc x ≤ max a x := le_max_right _ _
      _ ≤ ys.foldl max (max a x) := foldl_max_ge_init _ _
      _ = (x :: ys).foldl max a := rfl
    · exact ih _ hmem

theorem minStart_le (t : RangeTable) (s : Nat) (h : minStart t = some s) :
    ∀ r ∈ t, s ≤ r.1 := by
  match t with
  | [] => simp [minStart] at h
  | r0 :: rs =>
    simp only [minStart, Option.some.injEq] at h
    intro r hr
    rcases List.mem_cons.mp hr with heq | hmem
    · subst heq; rw [← h]; exact foldl_min_le_init _ _
    · rw [← h]
      exact foldl_min_le_mem _ _ _ (List.mem_map.mpr ⟨r, hmem, rfl⟩)

theorem maxEnd_ge (t : RangeTable) (e : Nat) (h : maxEnd t = some e) :
    ∀ r ∈ t, r.2.1 ≤ e := by
  match t with
  | [] => simp [maxEnd] at h
  | r0 :: rs =>
    simp only [maxEnd, Option.some.injEq] at h
    intro r hr
    rcases List.mem_cons.mp hr with heq | hmem
    · subst heq; rw [← h]; exact foldl_max_ge_init _ _
    · rw [← h]
      exact foldl_max_ge_mem _ _ _ (List.mem_map.mpr ⟨r, hmem, rfl⟩)

theorem minStart_isSome (t : RangeTable) (h : t ≠ []) : (minStart t).isSome := by
  match t with
  | [] => exact absurd rfl h
  | r :: rs => simp [minStart]

theorem maxEnd_isSome (t : RangeTable) (h : t ≠ []) : (maxEnd t).isSome := by
  match t with
  | [] => exact absurd rfl h
  | r :: rs => simp [maxEnd]

/-! ### Arithmetic bridges for the bit operations -/

theorem SIZE_eq : SIZE = 256 := rfl

theorem and_LAST_INDEX_eq_mod (c : Nat) : c &&& LAST_INDEX = c % SIZE :=
  Nat.and_pow_two_sub_one_eq_mod c 8

theorem and_MASK_eq_mod (c : Nat) : c &&& MASK = c % SIZE :=
  Nat.and_pow_two_sub_one_eq_mod c 8

theorem shiftRight_SHIFT_eq_div (c : Nat) : c >>> SHIFT = c / SIZE :=
  Nat.shiftRight_eq_div_pow c 8

theorem shiftLeft_SHIFT_eq_mul (c : Nat) : c <<< SHIFT = c * SIZE :=
  Nat.shiftLeft_eq c 8

theorem endBlockAddress_eq (e : Nat) : endBlockAddress e = e / SIZE * SIZE := by
  unfold endBlockAddress
  rw [shiftRight_SHIFT_eq_div, shiftLeft_SHIFT_eq_mul]

/-! ### position lemmas -/

theorem position_eq_some {α : Type} (p : α → Bool) (l : List α) (i : Nat)
    (h : position p l = some i) : ∃ hi : i < l.length, p (l.get ⟨i, hi⟩) = true := by
  induction l generalizing i with
  | nil => simp [position] at h
  | cons x xs ih =>
    by_cases hp : p x
    · simp only [position, if_pos hp, Option.some.injEq] at h
      subst h
      exact ⟨by simp, hp⟩
    · simp only [position, if_neg hp, Option.map_eq_some'] at h
      obtain ⟨a, ha, rfl⟩ := h
      obtain ⟨hia, hpa⟩ := ih a ha
      exact ⟨by simpa using hia, hpa⟩

theorem position_eq_none {α : Type} (p : α → Bool) (l : List α)
    (h : position p l = none) : ∀ x ∈ l, p x = false := by
  induction l with
  | nil => intro x hx; cases hx
  | cons y ys ih =>
    intro x hx
    by_cases hp : p y
    · simp [position, hp] at h
    · simp only [position, if_neg hp, Option.map_eq_none'] at h
      rcases List.mem_cons.mp hx with rfl | hmem
      · simpa using hp
      · exact ih h x hmem

theorem position_fst_eq (l : List (Nat × Block)) (i : Nat) (a : Nat)
    (hnd : (l.map fun q => q.1).Nodup) (hi : i < l.length) (ha : (l.get ⟨i, hi⟩).1 = a) :
    position (fun q => q.1 == a) l = some i := by
  induction l generalizing i with
  | nil => cases hi
  | cons x xs ih =>
    rw [List.map_cons, List.nodup_cons] at hnd
    obtain ⟨hx, hxs⟩ := hnd
    cases i with
    | zero =>
      have : x.1 = a := ha
      simp [position, this]
    | succ n =>
      have hn : n < xs.length := by simpa using hi
      have hxa : (xs.get ⟨n, hn⟩).1 = a := ha
      have hne : (x.1 == a) = false := by
        refine beq_eq_false_iff_ne.mpr ?_
        intro heq
        exact hx (heq ▸ List.mem_map.mpr ⟨_, List.get_mem xs n hn, hxa⟩)
      simp only [position, hne, Bool.false_eq_true, if_false, ih n hxs hn hxa,
        Option.map_some']

/-! ### The dedup invariant (block uniqueness, dense valid indices) -/

def blocksInv (bs : List (Nat × Block)) (ai : List (Nat × Nat)) : Prop :=
  bs.Pairwise (fun a b => a.2 ≠ b.2) ∧ ∀ e ∈ ai, e.2 < bs.length

theorem finalize_inv (bs : List (Nat × Block)) (ai : List (Nat × Nat))
    (addr : Nat) (b : Block) (h : blocksInv bs ai) :
    blocksInv (finalize bs ai addr b).1 (finalize bs ai addr b).2 := by
  unfold finalize
  cases hp : position (fun q => q.2 == b) bs with
  | some i =>
    obtain ⟨hi, hpi⟩ := position_eq_some _ _ _ hp
    refine ⟨h.1, ?_⟩
    intro e he
    rcases List.mem_append.mp he with hold | hnew
    · exact h.2 e hold
    · obtain rfl : e = (addr, i) := by simpa using hnew
      exact hi
  | none =>
    have hall := position_eq_none _ _ hp
    constructor
    · rw [List.pairwise_append]
      refine ⟨h.1, by simp, ?_⟩
      intro q hq q' hq'
      obtain rfl : q' = (addr, b) := by simpa using hq'
      intro heq
      have := hall q hq
      rw [heq] at this
      simp at this
    · intro e he
      rw [List.length_append, List.length_singleton]
      rcases List.mem_append.mp he with hold | hnew
      · exact Nat.lt_succ_of_lt (h.2 e hold)
      · obtain rfl : e = (addr, bs.length) := by simpa using hnew
        exact Nat.lt_succ_self _

theorem compileStep_inv (t : RangeTable) (st : CompState) (c : Nat)
    (h : blocksInv st.blocks st.addrToIdx) :
    blocksInv (compileStep t st c).blocks (compileStep t st c).addrToIdx := by
  unfold compileStep
  by_cases hc : c ≠ 0 ∧ c &&& LAST_INDEX = 0
  · simp only [if_pos hc]
    exact finalize_inv _ _ _ _ h
  · simp only [if_neg hc]
    exact h

theorem foldl_preserve {α β : Type} {f : β → α → β} {I : β → Prop}
    (step : ∀ b a, I b → I (f b a)) :
    ∀ (l : List α) (b : β), I b → I (l.foldl f b) := by
  intro l
  induction l with
  | nil => intro b h; exact h
  | cons x xs ih => intro b h; exact ih _ (step _ _ h)

/-! ### Characterising the scan loop -/

theorem writeRun_succ (t : RangeTable) (w : Block) (a n : Nat) :
    writeRun t w a (n + 1) = writeRun t (w.set (a &&& LAST_INDEX) (lookup t a)) (a + 1) n := by
  unfold writeRun
  rw [List.range'_succ, List.foldl_cons]

theorem writeRun_length (t : RangeTable) (w : Block) (a n : Nat) :
    (writeRun t w a n).length = w.length := by
  induction n generalizing a w with
  | zero => rfl
  | succ n ih => rw [writeRun_succ, ih, List.length_set]

theorem foldl_writes (t : RangeTable) (bs : List (Nat × Block)) (ai : List (Nat × Nat))
    (w : Block) (a n : Nat)
    (h : ∀ c, a ≤ c → c < a + n → ¬(c ≠ 0 ∧ c &&& LAST_INDEX = 0)) :
    (List.range' a n).foldl (compileStep t) (CompState.mk bs ai w) =
      CompState.mk bs ai (writeRun t w a n) := by
  induction n generalizing a w with
  | zero => rfl
  | succ n ih =>
    rw [List.range'_succ, List.foldl_cons]
    have hstep : compileStep t (CompState.mk bs ai w) a =
        CompState.mk bs ai (w.set (a &&& LAST_INDEX) (lookup t a)) := by
      unfold compileStep
      simp only [if_neg (h a le_rfl (by omega))]
    rw [hstep, ih _ _ (fun c hc1 hc2 => h c (by omega) (by omega)), ← writeRun_succ]

theorem map_getD_range (w : List BidiClass) (d : BidiClass) :
    (List.range w.length).map (fun j => w.getD j d) = w := by
  apply List.ext_getElem
  · simp
  · intro i h1 h2
    simp only [List.getElem_map, List.getElem_range]
    rw [List.getD_eq_getElem _ _ h2]

theorem blockNew_getD (j : Nat) : blockNew.getD j BidiClass.L = BidiClass.L := by
  rw [List.getD_eq_getElem?_getD]
  unfold blockNew
  rw [List.getElem?_replicate]
  rcases lt_or_ge j SIZE with h | h
  · rw [if_pos h]
    rfl
  · rw [if_neg (by omega)]
    rfl

theorem blockNew_length : blockNew.length = SIZE := by
  unfold blockNew
  exact List.length_replicate ..

theorem getD_set_ne (l : Block) (i j : Nat) (v d : BidiClass) (h : i ≠ j) :
    (l.set i v).getD j d = l.getD j d := by
  rw [List.getD_eq_getElem?_getD, List.getD_eq_getElem?_getD, List.getElem?_set_ne h]

theorem getD_set_self (l : Block) (i : Nat) (v d : BidiClass) (h : i < l.length) :
    (l.set i v).getD i d = v := by
  rw [List.getD_eq_getElem?_getD, List.getElem?_set_self h]
  rfl

theorem writeRun_block_aux (t : RangeTable) (base : Nat) (hbase : base % SIZE = 0) :
    ∀ n s (w : Block), s + n = SIZE → w.length = SIZE →
    writeRun t w (base + s) n =
      (List.range SIZE).map fun j =>
        if j < s then w.getD j BidiClass.L else lookup t (base + j) := by
  intro n
  induction n with
  | zero =>
    intro s w hs hw
    have hseq : s = SIZE := by omega
    subst hseq
    show w = _
    conv_lhs => rw [← map_getD_range w BidiClass.L]
    rw [hw]
    apply List.map_congr_left
    intro j hj
    rw [if_pos (List.mem_range.mp hj)]
  | succ n ih =>
    intro s w hs hw
    have hSZ : SIZE = 256 := SIZE_eq
    have hb : base % 256 = 0 := hbase
    have hmod : (base + s) &&& LAST_INDEX = s := by
      rw [and_LAST_INDEX_eq_mod, SIZE_eq]
      omega
    rw [writeRun_succ, hmod, show base + s + 1 = base + (s + 1) from by omega]
    rw [ih (s + 1) (w.set s (lookup t (base + s))) (by omega) (by rw [List.length_set, hw])]
    apply List.map_congr_left
    intro j hj
    have hjS : j < SIZE := List.mem_range.mp hj
    by_cases hjs : j < s
    · rw [if_pos (by omega : j < s + 1), if_pos hjs, getD_set_ne _ _ _ _ _ (by omega)]
    · by_cases hje : j = s
      · subst hje
        rw [if_pos (by omega : j < j + 1), if_neg (by omega),
          getD_set_self _ _ _ _ (by omega)]
      · rw [if_neg (by omega : ¬ j < s + 1), if_neg hjs]

theorem matBlock_length (t : RangeTable) (start k : Nat) :
    (matBlock t start k).length = SIZE := by
  unfold matBlock
  rw [List.length_map, List.length_range]

theorem matBlock_full (t : RangeTable) (start k : Nat) (h : start ≤ SIZE * k) :
    matBlock t start k = (List.range SIZE).map fun j => lookup t (SIZE * k + j) := by
  unfold matBlock
  apply List.map_congr_left
  intro j hj
  rw [if_pos (by omega)]

theorem blockSeq_succ (t : RangeTable) (start k : Nat) :
    blockSeq t start (k + 1) = blockSeq t start k ++ [(SIZE * k, matBlock t start k)] := by
  unfold blockSeq
  rw [List.range_succ, List.map_append]
  rfl

theorem dedupAll_concat (l : List (Nat × Block)) (ab : Nat × Block) :
    dedupAll (l ++ [ab]) = finalize (dedupAll l).1 (dedupAll l).2 ab.1 ab.2 := by
  unfold dedupAll
  rw [List.foldl_append]
  rfl

theorem scan_first (t : RangeTable) (start : Nat) (hstart : start < SIZE) :
    (List.range' start (SIZE - start)).foldl (compileStep t) (CompState.mk [] [] blockNew) =
      CompState.mk [] [] (matBlock t start 0) := by
  have hSZ : SIZE = 256 := SIZE_eq
  rw [foldl_writes t [] [] blockNew start (SIZE - start) ?hnb]
  case hnb =>
    intro c hc1 hc2 hcon
    obtain ⟨hc0, hcm⟩ := hcon
    rw [and_LAST_INDEX_eq_mod, SIZE_eq] at hcm
    omega
  congr 1
  have haux := writeRun_block_aux t 0 (by simp) (SIZE - start) start blockNew (by omega)
    (by simp [blockNew])
  rw [Nat.zero_add] at haux
  rw [haux]
  unfold matBlock
  apply List.map_congr_left
  intro j hj
  simp only [Nat.mul_zero, Nat.zero_add]
  by_cases hjs : j < start
  · rw [if_pos hjs, if_neg (by omega), blockNew_getD]
  · rw [if_neg hjs, if_pos (by omega)]

theorem foldl_fullBlock (t : RangeTable) (bs : List (Nat × Block)) (ai : List (Nat × Nat))
    (w : Block) (m : Nat) (hm : m % SIZE = 0) (hm1 : SIZE ≤ m) :
    (List.range' m SIZE).foldl (compileStep t) (CompState.mk bs ai w) =
      CompState.mk (finalize bs ai (m - SIZE) w).1 (finalize bs ai (m - SIZE) w).2
        ((List.range SIZE).map fun j => lookup t (m + j)) := by
  have hSZ : SIZE = 256 := SIZE_eq
  have hm' : m % 256 = 0 := hm
  have hm1' : 256 ≤ m := hm1
  have hmand : m &&& LAST_INDEX = 0 := by
    rw [and_LAST_INDEX_eq_mod, SIZE_eq]
    omega
  have haddr : ((m >>> SHIFT) - 1) <<< SHIFT = m - SIZE := by
    rw [shiftRight_SHIFT_eq_div, shiftLeft_SHIFT_eq_mul, SIZE_eq]
    omega
  have hstep : compileStep t (CompState.mk bs ai w) m =
      CompState.mk (finalize bs ai (m - SIZE) w).1 (finalize bs ai (m - SIZE) w).2
        (blockNew.set 0 (lookup t m)) := by
    unfold compileStep
    simp only [if_pos (⟨by omega, hmand⟩ : m ≠ 0 ∧ m &&& LAST_INDEX = 0)]
    simp only [haddr, hmand]
  have hrange : List.range' m SIZE = m :: List.range' (m + 1) 255 := by
    rw [SIZE_eq, show (256 : Nat) = 255 + 1 from rfl, List.range'_succ]
  rw [hrange, List.foldl_cons, hstep]
  rw [foldl_writes t _ _ _ (m + 1) 255 ?hnb]
  case hnb =>
    intro c hc1 hc2 hcon
    obtain ⟨hc0, hcm⟩ := hcon
    rw [and_LAST_INDEX_eq_mod, SIZE_eq] at hcm
    omega
  have haux := writeRun_block_aux t m hm 255 1 (blockNew.set 0 (lookup t m))
    (by omega) (by rw [List.length_set]; simp [blockNew])
  have hblock : writeRun t (blockNew.set 0 (lookup t m)) (m + 1) 255 =
      (List.range SIZE).map fun j => lookup t (m + j) := by
    rw [haux]
    apply List.map_congr_left
    intro j hj
    by_cases hj0 : j < 1
    · have hj' : j = 0 := by omega
      subst hj'
      rw [if_pos (by omega), getD_set_self _ _ _ _ (by rw [blockNew_length]; simp [SIZE_eq])]
      rw [Nat.add_zero]
    · rw [if_neg hj0]
  rw [hblock]

theorem scan_to_boundary (t : RangeTable) (start : Nat) (hstart : start < SIZE) :
    ∀ i, 1 ≤ i →
    (List.range' start (SIZE * i - start)).foldl (compileStep t) (CompState.mk [] [] blockNew) =
      CompState.mk (dedupAll (blockSeq t start (i - 1))).1
        (dedupAll (blockSeq t start (i - 1))).2 (matBlock t start (i - 1)) := by
  have hSZ : SIZE = 256 := SIZE_eq
  intro i
  induction i with
  | zero => omega
  | succ i ih =>
    intro _
    by_cases hi : i = 0
    · subst hi
      have h1 : SIZE * 1 - start = SIZE - start := by rw [Nat.mul_one]
      rw [h1, scan_first t start hstart]
      rfl
    · have h1i : 1 ≤ i := by omega
      have hsplit : List.range' start (SIZE * (i + 1) - start) =
          List.range' start (SIZE * i - start) ++ List.range' (SIZE * i) SIZE := by
        have happ := List.range'_append_1 start (SIZE * i - start) SIZE
        rw [show start + (SIZE * i - start) = SIZE * i from by
          simp only [SIZE_eq]; omega] at happ
        rw [show SIZE + (SIZE * i - start) = SIZE * (i + 1) - start from by
          simp only [SIZE_eq]; omega] at happ
        exact happ.symm
      rw [hsplit, List.foldl_append, ih h1i]
      rw [foldl_fullBlock t _ _ _ (SIZE * i) (by simp only [SIZE_eq]; omega)
        (by simp only [SIZE_eq]; omega)]
      have hmb : (List.range SIZE).map (fun j => lookup t (SIZE * i + j)) =
          matBlock t start i := (matBlock_full t start i (by simp only [SIZE_eq]; omega)).symm
      have hdd : finalize (dedupAll (blockSeq t start (i - 1))).1
            (dedupAll (blockSeq t start (i - 1))).2 (SIZE * i - SIZE) (matBlock t start (i - 1)) =
          dedupAll (blockSeq t start i) := by
        conv_rhs => rw [show i = (i - 1) + 1 from by omega]
        rw [blockSeq_succ, dedupAll_concat]
        rw [show SIZE * (i - 1) = SIZE * i - SIZE from by simp only [SIZE_eq]; omega]
      rw [hmb, hdd]
      simp only [Nat.add_sub_cancel]

theorem compile_table_some (t : RangeTable) (start last : Nat)
    (hmin : minStart t = some start) (hmax : maxEnd t = some last) :
    compile_table t = some (CompiledTable.mk
      ((List.range' start (scanEnd last + 1 - start)).foldl (compileStep t)
        (CompState.mk [] [] blockNew)).blocks
      ((List.range' start (scanEnd last + 1 - start)).foldl (compileStep t)
        (CompState.mk [] [] blockNew)).addrToIdx last) := by
  unfold compile_table
  rw [hmin, hmax]

theorem compile_table_eq (t : RangeTable) (start last : Nat)
    (hmin : minStart t = some start) (hmax : maxEnd t = some last) (hstart : start < SIZE) :
    compile_table t = some (CompiledTable.mk
      (dedupAll (blockSeq t start (last / SIZE + 1))).1
      (dedupAll (blockSeq t start (last / SIZE + 1))).2 last) := by
  have hSZ : SIZE = 256 := SIZE_eq
  have hlast : scanEnd last = SIZE * (last / SIZE + 1) := by
    rw [scanEnd, endBlockAddress_eq]
    simp only [SIZE_eq]
    omega
  rw [compile_table_some t start last hmin hmax]
  have hsplit : List.range' start (scanEnd last + 1 - start) =
      List.range' start (SIZE * (last / SIZE + 1) - start) ++ [SIZE * (last / SIZE + 1)] := by
    have hcon := @List.range'_concat 1 start (SIZE * (last / SIZE + 1) - start)
    rw [one_mul, show start + (SIZE * (last / SIZE + 1) - start) = SIZE * (last / SIZE + 1)
      from by simp only [SIZE_eq]; omega] at hcon
    rw [hlast, show SIZE * (last / SIZE + 1) + 1 - start =
      (SIZE * (last / SIZE + 1) - start) + 1 from by simp only [SIZE_eq]; omega]
    exact hcon
  rw [hsplit, List.foldl_append,
    scan_to_boundary t start hstart (last / SIZE + 1) (Nat.le_add_left 1 _)]
  have hcancel : SIZE * (last / SIZE + 1) / SIZE = last / SIZE + 1 := by
    rw [SIZE_eq]
    exact Nat.mul_div_cancel_left _ (by omega)
  have hmand : SIZE * (last / SIZE + 1) &&& LAST_INDEX = 0 := by
    rw [and_LAST_INDEX_eq_mod, SIZE_eq]
    exact Nat.mul_mod_right ..
  have hne : SIZE * (last / SIZE + 1) ≠ 0 := by
    rw [SIZE_eq]
    exact Nat.mul_ne_zero (by omega) (by omega)
  have haddr : (((SIZE * (last / SIZE + 1)) >>> SHIFT) - 1) <<< SHIFT =
      SIZE * (last / SIZE) := by
    rw [shiftRight_SHIFT_eq_div, shiftLeft_SHIFT_eq_mul, hcancel]
    simp only [SIZE_eq]
    omega
  show some (CompiledTable.mk (compileStep t _ _).blocks (compileStep t _ _).addrToIdx last) = _
  unfold compileStep
  simp only [if_pos (⟨hne, hmand⟩ :
    SIZE * (last / SIZE + 1) ≠ 0 ∧ SIZE * (last / SIZE + 1) &&& LAST_INDEX = 0)]
  simp only [haddr]
  have hdd : finalize (dedupAll (blockSeq t start (last / SIZE + 1 - 1))).1
        (dedupAll (blockSeq t start (last / SIZE + 1 - 1))).2 (SIZE * (last / SIZE))
        (matBlock t start (last / SIZE + 1 - 1)) =
      dedupAll (blockSeq t start (last / SIZE + 1)) := by
    conv_rhs => rw [show last / SIZE + 1 = (last / SIZE) + 1 from rfl]
    rw [blockSeq_succ, dedupAll_concat]
    simp only [Nat.add_sub_cancel]
  simp only [Nat.add_sub_cancel] at hdd ⊢
  rw [hdd]

/-! ### dedup output structure -/

theorem finalize_pos (bs : List (Nat × Block)) (ai : List (Nat × Nat)) (addr : Nat)
    (b : Block) (i : Nat) (hp : position (fun q => q.2 == b) bs = some i) :
    finalize bs ai addr b = (bs, ai ++ [(addr, i)]) := by
  unfold finalize
  rw [hp]

theorem finalize_neg (bs : List (Nat × Block)) (ai : List (Nat × Nat)) (addr : Nat)
    (b : Block) (hp : position (fun q => q.2 == b) bs = none) :
    finalize bs ai addr b = (bs ++ [(addr, b)], ai ++ [(addr, bs.length)]) := by
  unfold finalize
  rw [hp]

theorem dedupAll_spec (l : List (Nat × Block)) :
    (dedupAll l).2.length = l.length ∧
    (dedupAll l).1.Sublist l ∧
    ∀ k, k < l.length → ∃ idx addr2,
      (dedupAll l).2[k]? = some ((l.getD k (0, [])).1, idx) ∧
      idx < (dedupAll l).1.length ∧
      (dedupAll l).1[idx]? = some (addr2, (l.getD k (0, [])).2) := by
  induction l using List.reverseRecOn with
  | nil =>
    refine ⟨rfl, List.Sublist.refl _, fun k hk => absurd hk (by simp)⟩
  | append_singleton l ab ih =>
    obtain ⟨ihlen, ihsub, ihent⟩ := ih
    have hgetlast : (l ++ [ab]).getD l.length (0, []) = ab := by
      rw [List.getD_eq_getElem?_getD, List.getElem?_concat_length]
      rfl
    have hgetold : ∀ k, k < l.length → (l ++ [ab]).getD k (0, []) = l.getD k (0, []) := by
      intro k hk
      rw [List.getD_eq_getElem?_getD, List.getD_eq_getElem?_getD, List.getElem?_append,
        if_pos hk]
    cases hp : position (fun q => q.2 == ab.2) (dedupAll l).1 with
    | some i =>
      obtain ⟨hi, hpi⟩ := position_eq_some _ _ _ hp
      have hib : ((dedupAll l).1.get ⟨i, hi⟩).2 = ab.2 := beq_iff_eq.mp hpi
      rw [dedupAll_concat, finalize_pos _ _ _ _ i hp]
      refine ⟨by simp [ihlen], ihsub.trans (List.sublist_append_left l [ab]), ?_⟩
      intro k hk
      rw [List.length_append, List.length_singleton] at hk
      rcases Nat.lt_or_ge k l.length with hkl | hkl
      · obtain ⟨idx, addr2, h1, h2, h3⟩ := ihent k hkl
        refine ⟨idx, addr2, ?_, h2, ?_⟩
        · show ((dedupAll l).2 ++ [(ab.1, i)])[k]? = _
          rw [List.getElem?_append, if_pos (by omega), hgetold k hkl]
          exact h1
        · show (dedupAll l).1[idx]? = _
          rw [hgetold k hkl]
          exact h3
      · have hkeq : k = l.length := by omega
        subst hkeq
        refine ⟨i, ((dedupAll l).1.get ⟨i, hi⟩).1, ?_, hi, ?_⟩
        · show ((dedupAll l).2 ++ [(ab.1, i)])[l.length]? = _
          rw [hgetlast, ← ihlen, List.getElem?_concat_length]
        · show (dedupAll l).1[i]? = _
          rw [hgetlast, ← hib, List.getElem?_eq_getElem hi]
          rfl
    | none =>
      have hall := position_eq_none _ _ hp
      rw [dedupAll_concat, finalize_neg _ _ _ _ hp]
      refine ⟨by simp [ihlen], ?_, ?_⟩
      · show ((dedupAll l).1 ++ [(ab.1, ab.2)]).Sublist (l ++ [ab])
        exact ihsub.append_right [(ab.1, ab.2)]
      · intro k hk
        rw [List.length_append, List.length_singleton] at hk
        rcases Nat.lt_or_ge k l.length with hkl | hkl
        · obtain ⟨idx, addr2, h1, h2, h3⟩ := ihent k hkl
          refine ⟨idx, addr2, ?_, ?_, ?_⟩
          · show ((dedupAll l).2 ++ [(ab.1, (dedupAll l).1.length)])[k]? = _
            rw [List.getElem?_append, if_pos (by omega), hgetold k hkl]
            exact h1
          · show idx < ((dedupAll l).1 ++ [(ab.1, ab.2)]).length
            rw [List.length_append, List.length_singleton]
            omega
          · show ((dedupAll l).1 ++ [(ab.1, ab.2)])[idx]? = _
            rw [List.getElem?_append, if_pos (by omega), hgetold k hkl]
            exact h3
        · have hkeq : k = l.length := by omega
          subst hkeq
          refine ⟨(dedupAll l).1.length, ab.1, ?_, ?_, ?_⟩
          · show ((dedupAll l).2 ++ [(ab.1, (dedupAll l).1.length)])[l.length]? = _
            rw [hgetlast, ← ihlen, List.getElem?_concat_length]
          · show (dedupAll l).1.length < ((dedupAll l).1 ++ [(ab.1, ab.2)]).length
            rw [List.length_append, List.length_singleton]
            omega
          · show ((dedupAll l).1 ++ [(ab.1, ab.2)])[(dedupAll l).1.length]? = _
            rw [hgetlast, List.getElem?_concat_length]

theorem blockSeq_length (t : RangeTable) (start n : Nat) :
    (blockSeq t start n).length = n := by
  unfold blockSeq
  rw [List.length_map, List.length_range]

theorem blockSeq_getD (t : RangeTable) (start n k : Nat) (hk : k < n) :
    (blockSeq t start n).getD k (0, []) = (SIZE * k, matBlock t start k) := by
  unfold blockSeq
  rw [List.getD_eq_getElem?_getD, List.getElem?_map, List.getElem?_range hk]
  rfl

theorem blockSeq_fst_nodup (t : RangeTable) (start n : Nat) :
    ((blockSeq t start n).map fun q => q.1).Nodup := by
  unfold blockSeq
  rw [List.map_map]
  have : ((fun q : Nat × Block => q.1) ∘ fun k => (SIZE * k, matBlock t start k)) =
      fun k => SIZE * k := rfl
  rw [this]
  refine List.Nodup.map ?_ (List.nodup_range n)
  intro a b hab
  have hS : (0 : Nat) < SIZE := by simp [SIZE_eq]
  exact Nat.eq_of_mul_eq_mul_left hS hab

theorem blockSeq_block_length (t : RangeTable) (start n : Nat) :
    ∀ b ∈ blockSeq t start n, b.2.length = SIZE := by
  intro b hb
  unfold blockSeq at hb
  obtain ⟨k, hk, rfl⟩ := List.mem_map.mp hb
  exact matBlock_length t start k

/-! ### flatten lemmas -/

theorem flatten_length_of (L : List Block) (h : ∀ b ∈ L, b.length = SIZE) :
    L.flatten.length = SIZE * L.length := by
  induction L with
  | nil => simp
  | cons b bs ih =>
    rw [List.flatten_cons, List.length_append, h b (by simp),
      ih (fun x hx => h x (by simp [hx])), List.length_cons]
    ring

theorem flatten_getElem (L : List Block) (h : ∀ b ∈ L, b.length = SIZE) :
    ∀ i r, i < L.length → r < SIZE →
    L.flatten[SIZE * i + r]? = (L[i]?).bind fun b => b[r]? := by
  induction L with
  | nil =>
    intro i r hi hr
    simp at hi
  | cons b bs ih =>
    intro i r hi hr
    have hb : b.length = SIZE := h b (by simp)
    cases i with
    | zero =>
      rw [List.flatten_cons, Nat.mul_zero, Nat.zero_add]
      rw [List.getElem?_append, if_pos (by omega), List.getElem?_cons_zero]
      rfl
    | succ n =>
      rw [List.flatten_cons, List.getElem?_append]
      have hSZ : SIZE = 256 := SIZE_eq
      rw [if_neg (by rw [hb]; simp only [SIZE_eq]; omega)]
      rw [show SIZE * (n + 1) + r - b.length = SIZE * n + r from by
        rw [hb]; simp only [SIZE_eq]; omega]
      rw [ih (fun x hx => h x (by simp [hx])) n r (by simpa using hi) hr,
        List.getElem?_cons_succ]

theorem matBlock_getElem (t : RangeTable) (start k r : Nat) (hr : r < SIZE) :
    (matBlock t start k)[r]? =
      some (if start ≤ SIZE * k + r then lookup t (SIZE * k + r) else BidiClass.L) := by
  unfold matBlock
  rw [List.getElem?_map, List.getElem?_range hr]
  rfl

theorem mapM_eq_some_map {α β : Type} (f : α → Option β) (g : α → β) (l : List α)
    (h : ∀ x ∈ l, f x = some (g x)) : l.mapM f = some (l.map g) := by
  induction l with
  | nil => rfl
  | cons x xs ih =>
    rw [List.mapM_cons, h x (by simp), ih (fun y hy => h y (by simp [hy]))]
    rfl

theorem position_fst_eq_of_getElem (l : List (Nat × Block)) (i : Nat) (a : Nat) (b : Block)
    (hnd : (l.map fun q => q.1).Nodup) (h : l[i]? = some (a, b)) :
    position (fun q => q.1 == a) l = some i := by
  have hi : i < l.length := (List.getElem?_eq_some.mp h).1
  apply position_fst_eq l i a hnd hi
  have hgg := List.getElem?_eq_getElem hi
  rw [hgg] at h
  have heq := Option.some_inj.mp h
  show (l.get ⟨i, hi⟩).1 = a
  rw [show l.get ⟨i, hi⟩ = l[i] from rfl, heq]

/-! ### Bundled properties of the compiled table -/

theorem dedup_blockSeq_props (t : RangeTable) (start n : Nat) :
    (dedupAll (blockSeq t start n)).2.length = n ∧
    (∀ b ∈ (dedupAll (blockSeq t start n)).1, b.2.length = SIZE) ∧
    ((dedupAll (blockSeq t start n)).1.map fun q => q.1).Nodup ∧
    ∀ k, k < n → ∃ idx,
      (dedupAll (blockSeq t start n)).2[k]? = some (SIZE * k, idx) ∧
      idx < (dedupAll (blockSeq t start n)).1.length ∧
      ∃ addr2, (dedupAll (blockSeq t start n)).1[idx]? = some (addr2, matBlock t start k) := by
  obtain ⟨hlen, hsub, hent⟩ := dedupAll_spec (blockSeq t start n)
  refine ⟨by rw [hlen, blockSeq_length], ?_, ?_, ?_⟩
  · intro b hb
    exact blockSeq_block_length t start n b (hsub.subset hb)
  · exact List.Nodup.sublist (hsub.map fun q => q.1) (blockSeq_fst_nodup t start n)
  · intro k hk
    obtain ⟨idx, addr2, h1, h2, h3⟩ := hent k (by rw [blockSeq_length]; exact hk)
    rw [blockSeq_getD t start n k hk] at h1 h3
    exact ⟨idx, h1, h2, addr2, h3⟩

theorem compiled_props (t : RangeTable) (start last : Nat)
    (hmin : minStart t = some start) (hmax : maxEnd t = some last) (hstart : start < SIZE) :
    ∃ ct, compile_table t = some ct ∧
      ct.last_code_point = last ∧
      ct.address_to_block_index.length = last / SIZE + 1 ∧
      (∀ b ∈ ct.blocks, b.2.length = SIZE) ∧
      ((ct.blocks.map fun q => q.1).Nodup) ∧
      (∀ k, k < last / SIZE + 1 → ∃ idx,
        ct.address_to_block_index[k]? = some (SIZE * k, idx) ∧
        idx < ct.blocks.length ∧
        ∃ addr2, ct.blocks[idx]? = some (addr2, matBlock t start k)) ∧
      blockOffsets ct = some (ct.address_to_block_index.map fun e => e.2 * SIZE) := by
  obtain ⟨hlen, hblen, hnd, hent⟩ := dedup_blockSeq_props t start (last / SIZE + 1)
  refine ⟨_, compile_table_eq t start last hmin hmax hstart, rfl, hlen, hblen, hnd, hent, ?_⟩
  apply mapM_eq_some_map
  intro e he
  obtain ⟨k, hke⟩ := List.mem_iff_getElem?.mp he
  have hkN : k < last / SIZE + 1 := by
    rw [← hlen]
    exact (List.getElem?_eq_some.mp hke).1
  obtain ⟨idx, h1, h2, addr2, h3⟩ := hent k hkN
  rw [hke] at h1
  obtain rfl : e = (SIZE * k, idx) := Option.some_inj.mp h1.symm |>.symm
  show ((dedupAll (blockSeq t start (last / SIZE + 1))).1[idx]?).bind _ = _
  rw [h3]
  show blockOffset _ addr2 = _
  unfold blockOffset
  rw [position_fst_eq_of_getElem _ idx addr2 (matBlock t start k) hnd h3]
  rfl

/-! ### The accessor over the compiled artifacts -/

theorem bidi_class_gt (blocksArr : List BidiClass) (offsets : List Nat)
    (lastCodepoint c : Nat) (h : lastCodepoint < c) :
    bidi_class blocksArr offsets lastCodepoint c = some BidiClass.L := by
  unfold bidi_class
  rw [if_neg (by omega)]

theorem classify_compiled (t : RangeTable) (start last : Nat)
    (hmin : minStart t = some start) (hmax : maxEnd t = some last) (hstart : start < SIZE) :
    ∃ ct, compile_table t = some ct ∧
      ∀ c, c ≤ last → classify ct c = some (lookup t c) := by
  obtain ⟨ct, hct, hlast, hailen, hblen, hnd, hent, hoffs⟩ :=
    compiled_props t start last hmin hmax hstart
  refine ⟨ct, hct, ?_⟩
  intro c hc
  unfold classify
  rw [hoffs, Option.some_bind]
  unfold bidi_class
  rw [if_pos (by rw [hlast]; exact hc)]
  have hSZ : SIZE = 256 := SIZE_eq
  have hq : c >>> SHIFT = c / SIZE := shiftRight_SHIFT_eq_div c
  have hr : c &&& MASK = c % SIZE := and_MASK_eq_mod c
  have hqlt : c / SIZE < last / SIZE + 1 := by
    have hdd : c / SIZE ≤ last / SIZE := Nat.div_le_div_right hc
    omega
  obtain ⟨idx, h1, h2, addr2, h3⟩ := hent (c / SIZE) hqlt
  rw [hq]
  have hoffq : (ct.address_to_block_index.map fun e => e.2 * SIZE)[c / SIZE]? =
      some (idx * SIZE) := by
    rw [List.getElem?_map, h1]
    rfl
  rw [hoffq, Option.some_bind, hr]
  unfold bidiClassBlocks
  have hmaplen : ∀ b ∈ ct.blocks.map (fun q => q.2), b.length = SIZE := by
    intro b hb
    obtain ⟨q, hq2, rfl⟩ := List.mem_map.mp hb
    exact hblen q hq2
  have hfg := flatten_getElem (ct.blocks.map fun q => q.2) hmaplen idx (c % SIZE)
    (by rw [List.length_map]; exact h2) (by simp only [SIZE_eq]; omega)
  rw [show idx * SIZE + c % SIZE = SIZE * idx + c % SIZE from by rw [Nat.mul_comm]]
  rw [hfg, List.getElem?_map, h3]
  show (matBlock t start (c / SIZE))[c % SIZE]? = _
  rw [matBlock_getElem t start (c / SIZE) (c % SIZE) (by simp only [SIZE_eq]; omega)]
  rw [show SIZE * (c / SIZE) + c % SIZE = c from Nat.div_add_mod c SIZE]
  by_cases hcs : start ≤ c
  · rw [if_pos hcs]
  · rw [if_neg hcs]
    have hlu : lookup t c = BidiClass.L := by
      apply lookup_below_min
      intro r hrt
      have := minStart_le t start hmin r hrt
      omega
    rw [hlu]

instance : DecidableRel fun (a b : Nat × Nat × BidiClass) => a.2.1 < b.1 :=
  fun a b => Nat.decLt a.2.1 b.1

theorem lookupWithDefault_gap (t : RangeTable) (dflt : BidiClass) (c : Nat)
    (h : ∀ r ∈ t, ¬(r.1 ≤ c ∧ c ≤ r.2.1)) : lookupWithDefault t dflt c = dflt := by
  unfold lookupWithDefault
  cases hb : bsGo t c 0 t.length with
  | none => rfl
  | some m =>
    obtain ⟨-, hm, hcmp⟩ := bsGo_some t c 0 t.length m hb
    rw [List.getD_eq_getElem _ _ hm, rangeCmp_eq_eq] at hcmp
    exact absurd hcmp (h _ (List.getElem_mem hm))

theorem lookupWithDefault_found (t : RangeTable) (hwf : rangesWF t) (dflt : BidiClass)
    (c : Nat) : ∀ r ∈ t, r.1 ≤ c → c ≤ r.2.1 → lookupWithDefault t dflt c = r.2.2 := by
  intro r hr h1 h2
  have := lookup_found t hwf c r hr h1 h2
  unfold lookup at this
  unfold lookupWithDefault
  cases hb : bsGo t c 0 t.length with
  | none =>
    rw [hb] at this
    obtain ⟨k, hk, hkr⟩ := List.mem_iff_getElem.mp hr
    have hcmpk : rangeCmp c (t.getD k (0, 0, BidiClass.L)) = .eq := by
      rw [List.getD_eq_getElem _ _ hk, rangeCmp_eq_eq, hkr]
      exact ⟨h1, h2⟩
    exact absurd hcmpk
      (bsGo_none t c (wf_cmp_lt t hwf c) (wf_cmp_gt t hwf c) 0 t.length le_rfl hb k
        (Nat.zero_le k) hk)
  | some m =>
    rw [hb] at this
    exact this

/-! ### Claim theorems -/

/-- C1: for every codepoint c with 0 <= c <= last_code_point (the maximum range
end of the input table), the runtime accessor applied to the compiled table
returns the same class as the reference binary-search lookup over the source
range table; compilation does not alter any observable classification.  (The
hypothesis that the minimal range start lies in block 0 holds for the shipped
dataset, whose table starts at codepoint 0.) -/
theorem C1_round_trip_equivalence (t : RangeTable) (start last c : Nat)
    (hmin : minStart t = some start) (hmax : maxEnd t = some last)
    (hstart : start < SIZE) (hc : c ≤ last) :
    ∃ ct, compile_table t = some ct ∧ classify ct c = some (lookup t c) := by
  obtain ⟨ct, hct, hcl⟩ := classify_compiled t start last hmin hmax hstart
  exact ⟨ct, hct, hcl c hc⟩

/-- C1 witness: the accessor and the lookup agree at codepoint 300 of the
concrete table exTable. -/
theorem C1_witness :
    (minStart exTable = some 0 ∧ maxEnd exTable = some 300 ∧ 0 < SIZE ∧ 300 ≤ 300) ∧
    ∃ ct, compile_table exTable = some ct ∧
      classify ct 300 = some (lookup exTable 300) :=
  ⟨⟨by decide, by decide, by decide, by decide⟩,
    C1_round_trip_equivalence exTable 0 300 300 (by decide) (by decide) (by decide) (by decide)⟩

/-- C2: for every codepoint strictly greater than last_code_point the accessor
returns the default L directly, for all offset and block arrays whatsoever
(so in particular without reading either array). -/
theorem C2_default_beyond_range (blocksArr : List BidiClass) (offsets : List Nat)
    (lastCodepoint c : Nat) (h : lastCodepoint < c) :
    bidi_class blocksArr offsets lastCodepoint c = some BidiClass.L :=
  bidi_class_gt blocksArr offsets lastCodepoint c h

/-- C2 witness: codepoint 6 beyond last codepoint 5, with empty arrays. -/
theorem C2_witness : 5 < 6 ∧ bidi_class [] [] 5 6 = some BidiClass.L :=
  ⟨by decide, C2_default_beyond_range [] [] 5 6 (by decide)⟩

/-- C3 (amended): is_rtl returns true exactly for the fixed subset
RLE, RLO, RLI implemented in the source, and false for every other tag;
in particular it returns false for R, the class of codepoint 0x05D0. -/
theorem C3_is_rtl_membership (bc : BidiClass) :
    is_rtl bc = true ↔ (bc = BidiClass.RLE ∨ bc = BidiClass.RLO ∨ bc = BidiClass.RLI) := by
  cases bc <;> simp [is_rtl]

/-- C3 counterexample: the claim asserts is_rtl is true for the class R of
codepoint 0x05D0 (Hebrew Alef); the source returns false on R. -/
theorem C3_counterexample : is_rtl BidiClass.R = false := rfl

/-- C4 (amended): on a sorted, non-overlapping table, lookup returns the class
of the unique range containing the codepoint, and the fixed default L on a
gap (the default is hard-coded to L in this implementation, not configurable). -/
theorem C4_lookup_binary_search (t : RangeTable) (hwf : rangesWF t) (c : Nat) :
    (∀ r ∈ t, r.1 ≤ c → c ≤ r.2.1 → lookup t c = r.2.2) ∧
    ((∀ r ∈ t, ¬(r.1 ≤ c ∧ c ≤ r.2.1)) → lookup t c = BidiClass.L) :=
  ⟨lookup_found t hwf c, lookup_gap t c⟩

/-- C4 witness: codepoint 4 lies in the range (3, 5, R) of exTable. -/
theorem C4_witness : rangesWF exTable ∧ lookup exTable 4 = BidiClass.R :=
  ⟨⟨by decide, by decide⟩,
    (C4_lookup_binary_search exTable ⟨by decide, by decide⟩ 4).1 (3, 5, BidiClass.R)
      (by decide) (by decide) (by decide)⟩

/-- C4 counterexample: the gap default is not configurable per use: the
spec-modelled configurable-default lookup with default R disagrees with the
source lookup, which hard-codes L, at the gap codepoint 2. -/
theorem C4_counterexample :
    lookupWithDefault exTable BidiClass.R 2 = BidiClass.R ∧
    lookup exTable 2 = BidiClass.L ∧ BidiClass.R ≠ BidiClass.L :=
  ⟨lookupWithDefault_gap exTable BidiClass.R 2 (by decide),
    lookup_gap exTable 2 (by decide), by decide⟩

/-- C5: the accessor is total: on the table compiled from any non-empty input
whose minimal start lies in block 0, classify returns a class for every
codepoint; below last_code_point both array indices are in bounds, and above
it the default branch is taken. -/
theorem C5_accessor_total (t : RangeTable) (start last : Nat)
    (hmin : minStart t = some start) (hmax : maxEnd t = some last)
    (hstart : start < SIZE) :
    ∃ ct, compile_table t = some ct ∧
      (∀ c, (classify ct c).isSome = true) ∧
      ∃ offsets, blockOffsets ct = some offsets ∧
        ∀ c, c ≤ last →
          c >>> SHIFT < offsets.length ∧
          ∃ off, offsets[c >>> SHIFT]? = some off ∧
            off + (c &&& MASK) < (bidiClassBlocks ct).length := by
  obtain ⟨ct, hct, hlast, hailen, hblen, hnd, hent, hoffs⟩ :=
    compiled_props t start last hmin hmax hstart
  have hSZ : SIZE = 256 := SIZE_eq
  have hflat : (bidiClassBlocks ct).length = SIZE * ct.blocks.length := by
    unfold bidiClassBlocks
    rw [flatten_length_of]
    · rw [List.length_map]
    · intro b hb
      obtain ⟨q, hq2, rfl⟩ := List.mem_map.mp hb
      exact hblen q hq2
  refine ⟨ct, hct, ?_, ?_⟩
  case _ =>
    intro c
    rcases le_or_lt c last with hc | hc
    · unfold classify
      rw [hoffs, Option.some_bind]
      unfold bidi_class
      rw [if_pos (by rw [hlast]; exact hc)]
      have hq : c >>> SHIFT = c / SIZE := shiftRight_SHIFT_eq_div c
      have hr : c &&& MASK = c % SIZE := and_MASK_eq_mod c
      have hqlt : c / SIZE < last / SIZE + 1 := by
        have hdd : c / SIZE ≤ last / SIZE := Nat.div_le_div_right hc
        omega
      obtain ⟨idx, h1, h2, addr2, h3⟩ := hent (c / SIZE) hqlt
      rw [hq, List.getElem?_map, h1, Option.map_some', Option.some_bind, hr]
      have hidx : idx * SIZE + c % SIZE < (bidiClassBlocks ct).length := by
        rw [hflat]
        simp only [SIZE_eq]
        omega
      rw [List.getElem?_eq_getElem hidx]
      rfl
    · unfold classify
      rw [hoffs, Option.some_bind, bidi_class_gt _ _ _ c (by rw [hlast]; omega)]
      rfl
  case _ =>
    refine ⟨_, hoffs, ?_⟩
    intro c hc
    have hq : c >>> SHIFT = c / SIZE := shiftRight_SHIFT_eq_div c
    have hr : c &&& MASK = c % SIZE := and_MASK_eq_mod c
    have hqlt : c / SIZE < last / SIZE + 1 := by
      have hdd : c / SIZE ≤ last / SIZE := Nat.div_le_div_right hc
      omega
    obtain ⟨idx, h1, h2, addr2, h3⟩ := hent (c / SIZE) hqlt
    refine ⟨by rw [hq, List.length_map, hailen]; exact hqlt, idx * SIZE, ?_, ?_⟩
    · rw [hq, List.getElem?_map, h1]
      rfl
    · rw [hr, hflat]
      simp only [SIZE_eq]
      omega

/-- C5 witness: instantiation at the concrete table exTable. -/
theorem C5_witness :
    (minStart exTable = some 0 ∧ maxEnd exTable = some 300 ∧ 0 < SIZE) ∧
    ∃ ct, compile_table exTable = some ct ∧
      (∀ c, (classify ct c).isSome = true) ∧
      ∃ offsets, blockOffsets ct = some offsets ∧
        ∀ c, c ≤ 300 →
          c >>> SHIFT < offsets.length ∧
          ∃ off, offsets[c >>> SHIFT]? = some off ∧
            off + (c &&& MASK) < (bidiClassBlocks ct).length :=
  ⟨⟨by decide, by decide, by decide⟩,
    C5_accessor_total exTable 0 300 (by decide) (by decide) (by decide)⟩

/-- C6: in the compiled table no two stored blocks are equal under element-wise
block equality, and every recorded block index is a valid dense index into the
stored block list (a block is appended only when no stored block equals it). -/
theorem C6_block_dedup (t : RangeTable) (h : t ≠ []) :
    ∃ ct, compile_table t = some ct ∧
      ct.blocks.Pairwise (fun a b => a.2 ≠ b.2) ∧
      ∀ e ∈ ct.address_to_block_index, e.2 < ct.blocks.length := by
  obtain ⟨start, hmin⟩ := Option.isSome_iff_exists.mp (minStart_isSome t h)
  obtain ⟨last, hmax⟩ := Option.isSome_iff_exists.mp (maxEnd_isSome t h)
  refine ⟨_, compile_table_some t start last hmin hmax, ?_⟩
  have hinv := foldl_preserve (fun st c hi => compileStep_inv t st c hi)
    (List.range' start (scanEnd last + 1 - start))
    (CompState.mk [] [] blockNew) ⟨List.Pairwise.nil, by simp⟩
  exact ⟨hinv.1, hinv.2⟩

/-- C6 witness: instantiation at the concrete table exTable. -/
theorem C6_witness :
    exTable ≠ [] ∧
    ∃ ct, compile_table exTable = some ct ∧
      ct.blocks.Pairwise (fun a b => a.2 ≠ b.2) ∧
      ∀ e ∈ ct.address_to_block_index, e.2 < ct.blocks.length :=
  ⟨by decide, C6_block_dedup exTable (by decide)⟩

/-- C7: the offset table has exactly ceil((last_code_point + 1) / BLOCK_SIZE)
entries, one per block-aligned region spanned by the input rounded up to a
full block (for inputs whose minimal start lies in block 0, as the shipped
dataset's does). -/
theorem C7_offset_table_length (t : RangeTable) (start last : Nat)
    (hmin : minStart t = some start) (hmax : maxEnd t = some last)
    (hstart : start < SIZE) :
    ∃ ct, compile_table t = some ct ∧
      ct.address_to_block_index.length = (last + 1 + (SIZE - 1)) / SIZE := by
  obtain ⟨ct, hct, hlast, hailen, hrest⟩ := compiled_props t start last hmin hmax hstart
  refine ⟨ct, hct, ?_⟩
  rw [hailen]
  simp only [SIZE_eq]
  omega

/-- C7 witness: instantiation at the concrete table exTable. -/
theorem C7_witness :
    (minStart exTable = some 0 ∧ maxEnd exTable = some 300 ∧ 0 < SIZE) ∧
    ∃ ct, compile_table exTable = some ct ∧
      ct.address_to_block_index.length = (300 + 1 + (SIZE - 1)) / SIZE :=
  ⟨⟨by decide, by decide, by decide⟩,
    C7_offset_table_length exTable 0 300 (by decide) (by decide) (by decide)⟩

/-- C8 (amended): the scan end is end_block_address + BLOCK_SIZE (one past the
last codepoint of the final block, not BLOCK_SIZE - 1); the boundary crossing
at that extra codepoint is what emits the final, possibly partial, block
containing last_code_point as the last entry of the offset table. -/
theorem C8_scan_end_rounding (t : RangeTable) (start last : Nat)
    (hmin : minStart t = some start) (hmax : maxEnd t = some last)
    (hstart : start < SIZE) :
    scanEnd last = endBlockAddress last + SIZE ∧
    ∃ ct, compile_table t = some ct ∧
      ∃ k idx, ct.address_to_block_index[k]? = some (endBlockAddress last, idx) ∧
        k + 1 = ct.address_to_block_index.length ∧
        endBlockAddress last ≤ last ∧ last < endBlockAddress last + SIZE := by
  obtain ⟨ct, hct, hlast, hailen, hblen, hnd, hent, hoffs⟩ :=
    compiled_props t start last hmin hmax hstart
  have hSZ : SIZE = 256 := SIZE_eq
  have heba : endBlockAddress last = SIZE * (last / SIZE) := by
    rw [endBlockAddress_eq, Nat.mul_comm]
  obtain ⟨idx, h1, h2, addr2, h3⟩ := hent (last / SIZE) (by omega)
  refine ⟨rfl, ct, hct, last / SIZE, idx, ?_, by omega, ?_, ?_⟩
  · rw [heba]
    exact h1
  · rw [heba]
    simp only [SIZE_eq]
    omega
  · rw [heba]
    simp only [SIZE_eq]
    omega

/-- C8 witness: instantiation at the concrete table exTable. -/
theorem C8_witness :
    (minStart exTable = some 0 ∧ maxEnd exTable = some 300 ∧ 0 < SIZE) ∧
    (scanEnd 300 = endBlockAddress 300 + SIZE ∧
    ∃ ct, compile_table exTable = some ct ∧
      ∃ k idx, ct.address_to_block_index[k]? = some (endBlockAddress 300, idx) ∧
        k + 1 = ct.address_to_block_index.length ∧
        endBlockAddress 300 ≤ 300 ∧ 300 < endBlockAddress 300 + SIZE) :=
  ⟨⟨by decide, by decide, by decide⟩,
    C8_scan_end_rounding exTable 0 300 (by decide) (by decide) (by decide)⟩

/-- C8 counterexample: the scan end is not end_block_address + BLOCK_SIZE - 1
as claimed: for last_code_point 300 the code scans to 512, not 511. -/
theorem C8_counterexample : ¬ (scanEnd 300 = endBlockAddress 300 + SIZE - 1) := by
  decide

/-- C9 (amended): compilation fails exactly when the input range set is empty;
malformed but non-empty input is not rejected. -/
theorem C9_fails_iff_empty (t : RangeTable) : compile_table t = none ↔ t = [] := by
  constructor
  · intro h
    by_contra hne
    obtain ⟨start, hmin⟩ := Option.isSome_iff_exists.mp (minStart_isSome t hne)
    obtain ⟨last, hmax⟩ := Option.isSome_iff_exists.mp (maxEnd_isSome t hne)
    rw [compile_table_some t start last hmin hmax] at h
    exact absurd h (by simp)
  · intro h
    subst h
    rfl

/-- C9 counterexample: the unsorted, hence malformed, non-empty table badTable
is not rejected: compilation succeeds on it. -/
theorem C9_counterexample :
    (compile_table badTable).isSome = true ∧ ¬ rangesWF badTable := by
  constructor
  · rw [compile_table_some badTable 0 20 (by decide) (by decide)]
    rfl
  · intro hwf
    have := hwf.2
    rw [show badTable = [(10, 20, BidiClass.R), (0, 5, BidiClass.L)] from rfl,
      List.pairwise_cons] at this
    have h20 := this.1 (0, 5, BidiClass.L) (by simp)
    omega

/-- C10: every recorded (address, index) pair satisfies index < number of
stored blocks; with the minimal range start in block 0 the k-th entry's
address is exactly k * BLOCK_SIZE; every emitted offset constant is a
multiple of BLOCK_SIZE pointing at a complete block inside the flattened
block array, so table emission never indexes out of bounds. -/
theorem C10_offsets_in_bounds (t : RangeTable) (start last : Nat)
    (hmin : minStart t = some start) (hmax : maxEnd t = some last)
    (hstart : start < SIZE) :
    ∃ ct, compile_table t = some ct ∧
      (∀ k, k < ct.address_to_block_index.length → ∃ idx,
        ct.address_to_block_index[k]? = some (SIZE * k, idx) ∧
        idx < ct.blocks.length) ∧
      ∃ offsets, blockOffsets ct = some offsets ∧
        offsets.length = ct.address_to_block_index.length ∧
        ∀ k, k < offsets.length → ∃ off, offsets[k]? = some off ∧
          off + SIZE ≤ (bidiClassBlocks ct).length := by
  obtain ⟨ct, hct, hlast, hailen, hblen, hnd, hent, hoffs⟩ :=
    compiled_props t start last hmin hmax hstart
  have hSZ : SIZE = 256 := SIZE_eq
  have hflat : (bidiClassBlocks ct).length = SIZE * ct.blocks.length := by
    unfold bidiClassBlocks
    rw [flatten_length_of]
    · rw [List.length_map]
    · intro b hb
      obtain ⟨q, hq2, rfl⟩ := List.mem_map.mp hb
      exact hblen q hq2
  refine ⟨ct, hct, ?_, ?_⟩
  case _ =>
    intro k hk
    rw [hailen] at hk
    obtain ⟨idx, h1, h2, addr2, h3⟩ := hent k hk
    exact ⟨idx, h1, h2⟩
  refine ⟨_, hoffs, ?_, ?_⟩
  case _ => exact List.length_map ..
  intro k hk
  rw [List.length_map, hailen] at hk
  obtain ⟨idx, h1, h2, addr2, h3⟩ := hent k hk
  refine ⟨idx * SIZE, ?_, ?_⟩
  · rw [List.getElem?_map, h1]
    rfl
  · rw [hflat]
    simp only [SIZE_eq]
    omega

/-- C10 witness: instantiation at the concrete table exTable. -/
theorem C10_witness :
    (minStart exTable = some 0 ∧ maxEnd exTable = some 300 ∧ 0 < SIZE) ∧
    ∃ ct, compile_table exTable = some ct ∧
      (∀ k, k < ct.address_to_block_index.length → ∃ idx,
        ct.address_to_block_index[k]? = some (SIZE * k, idx) ∧
        idx < ct.blocks.length) ∧
      ∃ offsets, blockOffsets ct = some offsets ∧
        offsets.length = ct.address_to_block_index.length ∧
        ∀ k, k < offsets.length → ∃ off, offsets[k]? = some off ∧
          off + SIZE ≤ (bidiClassBlocks ct).length :=
  ⟨⟨by decide, by decide, by decide⟩,
    C10_offsets_in_bounds exTable 0 300 (by decide) (by decide) (by decide)⟩

end UnicodeBidi
